import Mathlib

/-!
Verification of the agent turn-loop engine and skill-metadata loader of the
langchain-skills-test repository.

The embedding follows `src/index-with-graph.ts` (turn-loop engine: the
`shouldContinue` routing function, the `ToolNode` dispatch, and the
agent/tools two-node loop) and `src/index-with-skills.ts` (the
`loadSkillsMetadata` skill loader and the first-turn system-prompt
injection in the agent node).

Messages are the LangChain message objects the code manipulates:
`SystemMessage`, `HumanMessage`, `AIMessage` (whose `tool_calls` field is
optional, hence `Option (List ToolCall)`), and `ToolMessage` (carrying the
`tool_call_id` correlation id). The external model client is abstracted as
a function from the input message list to the content and optional
tool-call list of the returned `AIMessage`; the external tool registry is
abstracted as a function from a `ToolCall` to the result text (error
strings included, per the registry contract).
-/

namespace SkillsTest

/-- A tool call as produced by the model: `{id, name, args}` from
`@langchain/core`. `args` is kept opaque as a string. -/
structure ToolCall where
  id : String
  name : String
  args : String
deriving DecidableEq, Repr

/-- The LangChain message union used by the code: `SystemMessage`,
`HumanMessage`, `AIMessage` (optional `tool_calls`) and `ToolMessage`
(with `tool_call_id`). -/
inductive Message where
  | system (text : String)
  | human (text : String)
  | ai (text : String) (toolCalls : Option (List ToolCall))
  | tool (toolCallId : String) (text : String)
deriving DecidableEq, Repr

/-- Whether a message is a `SystemMessage`. -/
def Message.isSystem : Message → Bool
  | .system _ => true
  | _ => false

/-- Whether a message is a `HumanMessage`. -/
def Message.isHuman : Message → Bool
  | .human _ => true
  | _ => false

/-- Whether a message is an `AIMessage`. -/
def Message.isAssistant : Message → Bool
  | .ai _ _ => true
  | _ => false

/-- The routing targets of `shouldContinue`: the string `"tools"` or the
string `"end"` in the source. -/
inductive Route where
  | tools
  | stop
deriving DecidableEq, Repr

/-- `shouldContinue` from `src/index-with-graph.ts` (identical in
`src/index-with-skills.ts`): reads `messages[messages.length - 1]`,
returns `"tools"` when `lastMessage.tool_calls && lastMessage.tool_calls.length > 0`,
else `"end"`. On an empty message list the JS code dereferences
`undefined` and throws a `TypeError`; this is modelled by returning
`none`. A non-`AIMessage` last message has no `tool_calls` property
(`undefined`, falsy), so it routes to `"end"`. -/
def shouldContinue (messages : List Message) : Option Route :=
  match messages.getLast? with
  | none => none
  | some (Message.ai _ (some tcs)) =>
      some (if tcs.length > 0 then Route.tools else Route.stop)
  | some _ => some Route.stop

/-- The external model client: from the input message list to the content
and optional `tool_calls` of the returned `AIMessage`. -/
def ModelFn := List Message → String × Option (List ToolCall)

/-- The external tool registry together with dispatch: maps a `ToolCall`
to the result text (success text or error string, per the registry
contract). -/
def ExecFn := ToolCall → String

/-- The `ToolNode` of `@langchain/langgraph/prebuilt` as instantiated in
`src/index-with-graph.ts`: reads the last message's `tool_calls`, runs
each call, and returns one `ToolMessage` per call, in the order of the
calls, each carrying the originating call's `id` as `tool_call_id`. -/
def toolNode (exec : ExecFn) (messages : List Message) : List Message :=
  match messages.getLast? with
  | some (Message.ai _ (some tcs)) =>
      tcs.map (fun tc => Message.tool tc.id (exec tc))
  | _ => []

/-- The compiled graph loop of `src/index-with-graph.ts`:
`START → agent`, then `agent → tools` or `agent → END` by
`shouldContinue`, and `tools → agent`. The agent node appends the model's
`AIMessage` (state reducer `(x, y) => x.concat(y)`); the tools node
appends the `ToolMessage`s. `fuel` bounds the number of agent turns. -/
def runGraph (model : ModelFn) (exec : ExecFn) : Nat → List Message → List Message
  | 0, msgs => msgs
  | fuel + 1, msgs =>
    let r := model msgs
    let msgs1 := msgs ++ [Message.ai r.1 r.2]
    match shouldContinue msgs1 with
    | some Route.tools => runGraph model exec fuel (msgs1 ++ toolNode exec msgs1)
    | _ => msgs1

/-- Correlation-id bookkeeping for the transcript invariant: walks the
transcript carrying the list of tool-call ids still awaiting a
`ToolMessage`. An `AIMessage` is admissible only when no ids are pending
(so every call was resolved before the next assistant message) and loads
the ids of its own calls; a `ToolMessage` must consume exactly the first
pending id (same correlation id, same order); other messages leave the
pending ids unchanged. Returns `none` on a violation, otherwise the ids
still pending at the end. -/
def scanPending : List String → List Message → Option (List String)
  | pending, [] => some pending
  | pending, Message.ai _ tcs :: rest =>
      if pending.isEmpty then
        scanPending ((tcs.getD []).map ToolCall.id) rest
      else none
  | pending, Message.tool cid _ :: rest =>
      match pending with
      | [] => none
      | p :: ps => if p = cid then scanPending ps rest else none
  | pending, _ :: rest => scanPending pending rest

/-- The transcript invariant of the spec: every `ToolCall` emitted by an
`AIMessage` is matched, before the next `AIMessage`, by exactly one
`ToolMessage` with the same correlation id, in the same order, and no
calls are left pending at the end. -/
def callsMatched (msgs : List Message) : Prop :=
  scanPending [] msgs = some []

instance (msgs : List Message) : Decidable (callsMatched msgs) := by
  unfold callsMatched; infer_instance

/-- `callModel` from `src/index-with-graph.ts`: reads the model from
`config.configurable?.model`; when absent it throws
`Error("Model not provided in config")` (modelled as `Except.error`),
otherwise it invokes the model on the transcript and returns the
single-element message update. -/
def callModel (config : Option ModelFn) (messages : List Message) :
    Except String (List Message) :=
  match config with
  | none => Except.error "Model not provided in config"
  | some model =>
      let r := model messages
      Except.ok [Message.ai r.1 r.2]

/-- The graph loop driven through `callModel`, so that a missing model in
the config surfaces as an engine-level error rather than a transcript. -/
def runConfigured (config : Option ModelFn) (exec : ExecFn) :
    Nat → List Message → Except String (List Message)
  | 0, msgs => Except.ok msgs
  | fuel + 1, msgs =>
    match callModel config msgs with
    | Except.error e => Except.error e
    | Except.ok update =>
      let msgs1 := msgs ++ update
      match shouldContinue msgs1 with
      | some Route.tools =>
          runConfigured config exec fuel (msgs1 ++ toolNode exec msgs1)
      | _ => Except.ok msgs1

/-- The agent node of `src/index-with-skills.ts`: when
`messages.length === 1` it prepends a `SystemMessage` built from the
loaded skills (`skillsPrompt`) to the model input; otherwise it passes the
transcript as is. Only the model's `AIMessage` is returned as the state
update. This function returns the input actually handed to the model,
so that injection can be observed. -/
def agentInput (skillsPrompt : String) (messages : List Message) : List Message :=
  if messages.length == 1 then Message.system skillsPrompt :: messages
  else messages

/-- The compiled graph loop of `src/index-with-skills.ts`, instrumented
with the list of inputs passed to the model at each invocation (`log`).
The transcript itself only ever receives the `AIMessage` returned by the
agent node and the `ToolMessage`s of the tools node. -/
def runSkillsAux (skillsPrompt : String) (model : ModelFn) (exec : ExecFn) :
    Nat → List Message → List (List Message) → List Message × List (List Message)
  | 0, msgs, log => (msgs, log)
  | fuel + 1, msgs, log =>
    let input := agentInput skillsPrompt msgs
    let r := model input
    let msgs1 := msgs ++ [Message.ai r.1 r.2]
    let log1 := log ++ [input]
    match shouldContinue msgs1 with
    | some Route.tools =>
        runSkillsAux skillsPrompt model exec fuel (msgs1 ++ toolNode exec msgs1) log1
    | _ => (msgs1, log1)

/-- One session run of the skills graph: the caller supplies one
`HumanMessage`, the engine loops until the model stops requesting tools
(or fuel runs out). Returns the final transcript and the list of model
inputs. -/
def runSkills (skillsPrompt : String) (model : ModelFn) (exec : ExecFn)
    (fuel : Nat) (query : String) : List Message × List (List Message) :=
  runSkillsAux skillsPrompt model exec fuel [Message.human query] []

/-! ### Skill loader (`loadSkillsMetadata` of `src/index-with-skills.ts`)

The loader parses instruction files with three JavaScript regexes:

* `content.match` with pattern `^---\n([\s\S]+?)\n---` — the frontmatter match;
* `frontmatter.match` with pattern `name:\s*(.+)` and
  pattern `description:\s*(.+)` — the key matches;
* `content.replace` of pattern `^---\n[\s\S]+?\n---\n` by the empty string — the body extraction.

Their semantics are modelled exactly on `List Char`: the lazy
`[\s\S]+?` is the earliest occurrence of the following literal after at
least one captured character; `\s*` is a greedy whitespace run with
single-character backtracking against the following `(.+)`, which needs
at least one non-newline character and then captures greedily up to the
next newline. -/

/-- The whitespace class of JavaScript `\s` (and of `String.prototype.trim`)
restricted to its ASCII members: space, tab, newline, carriage return,
vertical tab, form feed. -/
def isWs (c : Char) : Bool :=
  c = ' ' || c = '\t' || c = '\n' || c = '\r' || c = Char.ofNat 11 || c = Char.ofNat 12

/-- Whether `pat` matches the front of the text, character by character. -/
def matchesAt : List Char → List Char → Bool
  | [], _ => true
  | p :: ps, cs =>
      match cs with
      | [] => false
      | c :: cs2 => p == c && matchesAt ps cs2

/-- Index of the first occurrence of `pat` as a contiguous sublist. -/
def findSub (pat : List Char) : List Char → Option Nat
  | [] => if pat.isEmpty then some 0 else none
  | c :: rest =>
      if matchesAt pat (c :: rest) then some 0
      else (findSub pat rest).map (· + 1)

/-- Length of the maximal whitespace run at the front (the greedy `\s*`). -/
def wsCount : List Char → Nat
  | [] => 0
  | c :: rest => if isWs c then wsCount rest + 1 else 0

/-- Backtracking of `\s*(.+)`: with `a` whitespace characters consumed by
`\s*`, `(.+)` must start with a non-newline character; on failure `\s*`
gives back one character at a time. On success `(.+)` captures greedily up
to the next newline. -/
def tryCapture (tail : List Char) : Nat → Option (List Char)
  | 0 =>
      match tail with
      | [] => none
      | c :: _ => if c = '\n' then none else some (tail.takeWhile (fun x => x ≠ '\n'))
  | a + 1 =>
      match tail.drop (a + 1) with
      | [] => tryCapture tail a
      | c :: _ =>
          if c = '\n' then tryCapture tail a
          else some ((tail.drop (a + 1)).takeWhile (fun x => x ≠ '\n'))

/-- `text.match` with pattern `key\s*(.+)` for a literal `key`: the first position
where the key occurs and the rest of the pattern matches; the capture of
`(.+)` is returned. The key is matched case-sensitively and anywhere in
the text, first full match wins. -/
def keyMatch (key : List Char) : List Char → Option (List Char)
  | [] => none
  | c :: rest =>
      if matchesAt key (c :: rest) then
        match tryCapture ((c :: rest).drop key.length) (wsCount ((c :: rest).drop key.length)) with
        | some cap => some cap
        | none => keyMatch key rest
      else keyMatch key rest

/-- `content.match` with pattern `^---\n([\s\S]+?)\n---`: the content must begin with
the line `---`; the capture is the shortest non-empty run followed by a
newline and three dashes (note: the closing three dashes need not form a
whole line). Returns the captured frontmatter. -/
def frontmatterMatch (content : List Char) : Option (List Char) :=
  if matchesAt ('-' :: '-' :: '-' :: '\n' :: []) content then
    let rest := content.drop 4
    match findSub ('\n' :: '-' :: '-' :: '-' :: []) (rest.drop 1) with
    | some i => some (rest.take (i + 1))
    | none => none
  else none

/-- `content.replace` of pattern `^---\n[\s\S]+?\n---\n` by the empty string: removes the opening
`---` line, the shortest non-empty frontmatter, and a closing line that is
exactly `---` followed by its newline; when the pattern does not match,
the content is returned unchanged. -/
def stripHeader (content : List Char) : List Char :=
  if matchesAt ('-' :: '-' :: '-' :: '\n' :: []) content then
    let rest := content.drop 4
    match findSub ('\n' :: '-' :: '-' :: '-' :: '\n' :: []) (rest.drop 1) with
    | some i => rest.drop (i + 1 + 5)
    | none => content
  else content

/-- `String.prototype.trim`: drop whitespace from both ends. -/
def trimChars (cs : List Char) : List Char :=
  ((cs.dropWhile isWs).reverse.dropWhile isWs).reverse

/-- A loaded skill descriptor, as pushed by `loadSkillsMetadata`. -/
structure SkillDescriptor where
  name : String
  description : String
  path : String
  instructions : String
deriving DecidableEq, Repr

/-- The literal `name:` of the name-key regex. -/
def nameKey : List Char := 'n' :: 'a' :: 'm' :: 'e' :: ':' :: []

/-- The literal `description:` of the description-key regex. -/
def descKey : List Char :=
  'd' :: 'e' :: 's' :: 'c' :: 'r' :: 'i' :: 'p' :: 't' :: 'i' :: 'o' :: 'n' :: ':' :: []

/-- The per-file body of `loadSkillsMetadata`: match the frontmatter,
match both keys inside it, and on success build the descriptor with
trimmed name, trimmed description, and the trimmed body left by the
replace regex. Any failed match yields `none` (the skill is skipped
silently). -/
def parseSkillFile (skillMdPath : String) (content : String) : Option SkillDescriptor :=
  let cs := content.toList
  match frontmatterMatch cs with
  | none => none
  | some fm =>
    match keyMatch nameKey fm, keyMatch descKey fm with
    | some n, some d =>
        some { name := (trimChars n).asString,
               description := (trimChars d).asString,
               path := skillMdPath,
               instructions := (trimChars (stripHeader cs)).asString }
    | _, _ => none

/-- One entry of `backend.lsInfo(skillsPath)`. -/
structure DirEntry where
  path : String
  is_dir : Bool
deriving DecidableEq, Repr

/-- The warning printed by the `catch` branch of `loadSkillsMetadata`. -/
def warnMsg (skillMdPath : String) : String :=
  "Warning: Could not load skill from " ++ skillMdPath

/-- `loadSkillsMetadata` of `src/index-with-skills.ts`: for each directory
entry, build `dir.path + "SKILL.md"`, read it (`readRaw` returning `none`
models the thrown read error, caught and logged as a warning), join the
lines with newlines, and parse; a successful parse pushes the descriptor,
a failed parse is skipped silently. Returns the descriptors in
enumeration order together with the warnings emitted. -/
def loadSkillsMetadata (readRaw : String → Option (List String)) :
    List DirEntry → List SkillDescriptor × List String
  | [] => ([], [])
  | dir :: rest =>
    if dir.is_dir then
      let skillMdPath := dir.path ++ "SKILL.md"
      match readRaw skillMdPath with
      | none =>
          let r := loadSkillsMetadata readRaw rest
          (r.1, warnMsg skillMdPath :: r.2)
      | some lines =>
          match parseSkillFile skillMdPath (String.intercalate "\n" lines) with
          | some sk =>
              let r := loadSkillsMetadata readRaw rest
              (sk :: r.1, r.2)
          | none => loadSkillsMetadata readRaw rest
    else loadSkillsMetadata readRaw rest

/-- A directory entry that yields a descriptor: it is a directory, its
`SKILL.md` reads successfully, and the file parses with both keys
present. -/
def validSkillDir (readRaw : String → Option (List String)) (d : DirEntry) : Bool :=
  d.is_dir &&
    match readRaw (d.path ++ "SKILL.md") with
    | none => false
    | some lines =>
        (parseSkillFile (d.path ++ "SKILL.md") (String.intercalate "\n" lines)).isSome

/-! ### Helper lemmas -/

/-- Routing after an append: `shouldContinue` only inspects the last message. -/
theorem shouldContinue_concat (msgs : List Message) (m : Message) :
    shouldContinue (msgs ++ [m])
      = some (match m with
              | Message.ai _ (some tcs) =>
                  if tcs.length > 0 then Route.tools else Route.stop
              | _ => Route.stop) := by
  unfold shouldContinue
  rw [List.getLast?_concat]
  cases m with
  | ai c tcs => cases tcs <;> rfl
  | system t => rfl
  | human t => rfl
  | tool i t => rfl

/-- `scanPending` distributes over list append, threading the pending ids. -/
theorem scanPending_append (p : List String) (xs ys : List Message) :
    scanPending p (xs ++ ys)
      = match scanPending p xs with
        | some q => scanPending q ys
        | none => none := by
  induction xs generalizing p with
  | nil => rfl
  | cons m rest ih =>
    cases m with
    | ai c tcs =>
      simp only [List.cons_append, scanPending]
      by_cases h : p.isEmpty
      · simp [h, ih]
      · simp [h]
    | tool cid t =>
      cases p with
      | nil => simp [scanPending]
      | cons q qs =>
        simp only [List.cons_append, scanPending]
        by_cases h : q = cid
        · simp [h, ih]
        · simp [h]
    | system t => simpa [scanPending] using ih p
    | human t => simpa [scanPending] using ih p

/-- The `ToolMessage`s produced by the tools node consume exactly the pending
ids of the originating calls, in order. -/
theorem scanPending_results (exec : ExecFn) (tcs : List ToolCall) :
    scanPending (tcs.map ToolCall.id)
      (tcs.map (fun tc => Message.tool tc.id (exec tc))) = some [] := by
  induction tcs with
  | nil => rfl
  | cons tc rest ih => simp [scanPending, ih]

/-- C1: for every transcript produced by the turn-loop engine from a transcript
satisfying the correlation invariant, each `ToolCall` emitted by an `AIMessage`
is matched, before the next `AIMessage`, by exactly one `ToolMessage` carrying
the same correlation id, and the `ToolMessage` sequence appears in the same
order as the originating `ToolCall` sequence. -/
theorem runGraph_callsMatched (model : ModelFn) (exec : ExecFn) (fuel : Nat)
    (msgs : List Message) (h : callsMatched msgs) :
    callsMatched (runGraph model exec fuel msgs) := by
  induction fuel generalizing msgs with
  | zero => exact h
  | succ fuel ih =>
    unfold callsMatched at h ⊢
    unfold runGraph
    simp only [shouldContinue_concat]
    cases htc : (model msgs).2 with
    | none =>
      simp only [htc]
      rw [scanPending_append, h]
      rfl
    | some l =>
      cases l with
      | nil =>
        simp only [htc]
        show scanPending [] (msgs ++ [Message.ai (model msgs).1 (some [])]) = some []
        rw [scanPending_append, h]
        rfl
      | cons t ts =>
        simp only [htc, List.length_cons]
        have hstep : scanPending [] (msgs ++ [Message.ai (model msgs).1 (some (t :: ts))])
            = some ((t :: ts).map ToolCall.id) := by
          rw [scanPending_append, h]
          rfl
        have htool : toolNode exec (msgs ++ [Message.ai (model msgs).1 (some (t :: ts))])
            = (t :: ts).map (fun tc => Message.tool tc.id (exec tc)) := by
          unfold toolNode
          rw [List.getLast?_concat]
        simp only [Nat.succ_sub_one, if_pos (Nat.succ_pos ts.length)]
        apply ih
        unfold callsMatched
        rw [htool, scanPending_append, hstep]
        exact scanPending_results exec (t :: ts)

/-- C2: for every state whose most recently appended message is an `AIMessage`,
`shouldContinue` routes to tool execution exactly when that message has at
least one `ToolCall`, and to termination otherwise; a present-but-empty
`tool_calls` sequence routes like an absent one; and when the model returns no
tool calls the engine stops and returns the transcript with only that
`AIMessage` appended, unchanged regardless of remaining fuel. -/
theorem routing_spec :
    (∀ (msgs : List Message) (c : String) (tcs : Option (List ToolCall)),
        shouldContinue (msgs ++ [Message.ai c tcs])
          = some (if 0 < (tcs.getD []).length then Route.tools else Route.stop))
    ∧ (∀ (msgs : List Message) (c : String),
        shouldContinue (msgs ++ [Message.ai c (some [])])
          = shouldContinue (msgs ++ [Message.ai c none]))
    ∧ (∀ (model : ModelFn) (exec : ExecFn) (fuel : Nat) (msgs : List Message),
        ((model msgs).2.getD []).length = 0 →
        runGraph model exec (fuel + 1) msgs
          = msgs ++ [Message.ai (model msgs).1 (model msgs).2]) := by
  refine ⟨?_, ?_, ?_⟩
  · intro msgs c tcs
    rw [shouldContinue_concat]
    cases tcs <;> rfl
  · intro msgs c
    rw [shouldContinue_concat, shouldContinue_concat]
    rfl
  · intro model exec fuel msgs h
    unfold runGraph
    simp only [shouldContinue_concat]
    cases htc : (model msgs).2 with
    | none => simp [htc]
    | some l =>
      cases l with
      | nil => simp [htc]
      | cons t ts => rw [htc] at h; simp at h

/-- Witness for `routing_spec`: a concrete one-turn run that reaches `Done` and
returns the transcript unchanged. -/
theorem routing_spec_witness :
    runGraph (fun _ => ("hello", none)) (fun _ => "") 1 [Message.human "hi"]
      = [Message.human "hi", Message.ai "hello" none] := by
  have h := routing_spec.2.2 (fun _ => ("hello", none)) (fun _ => "") 0
    [Message.human "hi"] (by decide)
  simpa using h

/-- C8: when no model is configured, the engine surfaces the configuration
error `Model not provided in config` to the caller before any turn executes,
for every fuel and transcript (so it is not retried), and the result carries no
transcript, so the error is never folded into the transcript as a
`ToolMessage`. -/
theorem missing_model_fatal (exec : ExecFn) (fuel : Nat) (msgs : List Message) :
    runConfigured none exec (fuel + 1) msgs
      = Except.error "Model not provided in config" := rfl

/-- C9: whenever `shouldContinue` is evaluated on a state whose message
sequence ends with a just-appended `AIMessage` (the only shape the agent node
produces), the sequence is non-empty and the routing function is defined; on
the empty message sequence it is undefined (`none`, modelling the thrown
`TypeError` of the unguarded last-element access). -/
theorem shouldContinue_reachable :
    (∀ (msgs : List Message) (c : String) (tcs : Option (List ToolCall)),
        (shouldContinue (msgs ++ [Message.ai c tcs])).isSome = true)
    ∧ shouldContinue ([] : List Message) = none := by
  constructor
  · intro msgs c tcs
    rw [shouldContinue_concat]
    rfl
  · rfl

/-- The instrumented skills loop only ever appends to its input log, and the
transcript it produces does not depend on the log. -/
theorem runSkillsAux_log_shift (prompt : String) (model : ModelFn) (exec : ExecFn)
    (fuel : Nat) :
    ∀ (msgs : List Message) (log : List (List Message)),
      (runSkillsAux prompt model exec fuel msgs log).1
          = (runSkillsAux prompt model exec fuel msgs []).1
      ∧ (runSkillsAux prompt model exec fuel msgs log).2
          = log ++ (runSkillsAux prompt model exec fuel msgs []).2 := by
  induction fuel with
  | zero =>
    intro msgs log
    exact ⟨rfl, by simp [runSkillsAux]⟩
  | succ fuel ih =>
    intro msgs log
    simp only [runSkillsAux]
    cases hr : shouldContinue
        (msgs ++ [Message.ai (model (agentInput prompt msgs)).1
                    (model (agentInput prompt msgs)).2]) with
    | none => simp
    | some route =>
      cases route with
      | stop => simp
      | tools =>
        simp only []
        set msgs2 := msgs ++ [Message.ai (model (agentInput prompt msgs)).1
            (model (agentInput prompt msgs)).2] ++
            toolNode exec (msgs ++ [Message.ai (model (agentInput prompt msgs)).1
              (model (agentInput prompt msgs)).2]) with hm2
        have h1 := ih msgs2 (log ++ [agentInput prompt msgs])
        have h2 := ih msgs2 [agentInput prompt msgs]
        refine ⟨h1.1.trans h2.1.symm, ?_⟩
        rw [h1.2]
        simp only [List.nil_append]
        rw [h2.2]
        simp

/-- Tool dispatch produces only `ToolMessage`s, never a `SystemMessage`. -/
theorem toolMsgs_no_system (exec : ExecFn) (tcs : List ToolCall) :
    ((tcs.map (fun tc => Message.tool tc.id (exec tc))).all
        (fun m => !m.isSystem)) = true := by
  induction tcs with
  | nil => rfl
  | cons t ts ih => simp [Message.isSystem, ih]

/-- Invariant of the skills loop after the first turn: once the transcript has
at least two messages and no `SystemMessage`, every later transcript and every
later model input also has no `SystemMessage`. -/
theorem runSkillsAux_inv (prompt : String) (model : ModelFn) (exec : ExecFn)
    (fuel : Nat) :
    ∀ (msgs : List Message), 2 ≤ msgs.length →
      msgs.all (fun m => !m.isSystem) = true →
      (runSkillsAux prompt model exec fuel msgs []).1.all (fun m => !m.isSystem) = true
      ∧ (runSkillsAux prompt model exec fuel msgs []).2.all
          (fun input => input.all (fun m => !m.isSystem)) = true := by
  induction fuel with
  | zero =>
    intro msgs _ hsys
    exact ⟨hsys, rfl⟩
  | succ fuel ih =>
    intro msgs hlen hsys
    have hne : (msgs.length == 1) = false := by
      simp only [beq_eq_false_iff_ne]
      omega
    have hain : agentInput prompt msgs = msgs := by
      simp [agentInput, hne]
    simp only [runSkillsAux, hain, shouldContinue_concat, List.nil_append]
    cases htc : (model msgs).2 with
    | none =>
      refine ⟨?_, ?_⟩
      · show ((msgs ++ [Message.ai (model msgs).1 none]).all fun m => !m.isSystem) = true
        rw [List.all_append, hsys]
        rfl
      · show (([msgs]).all fun input => input.all fun m => !m.isSystem) = true
        rw [List.all_cons]
        show (msgs.all fun m => !m.isSystem) && true = true
        rw [hsys]
        rfl
    | some l =>
      cases l with
      | nil =>
        refine ⟨?_, ?_⟩
        · show ((msgs ++ [Message.ai (model msgs).1 (some [])]).all fun m => !m.isSystem) = true
          rw [List.all_append, hsys]
          rfl
        · show (([msgs]).all fun input => input.all fun m => !m.isSystem) = true
          rw [List.all_cons]
          show (msgs.all fun m => !m.isSystem) && true = true
          rw [hsys]
          rfl
      | cons t ts =>
        simp only [List.length_cons, if_pos (Nat.succ_pos ts.length)]
        set msgs1 := msgs ++ [Message.ai (model msgs).1 (some (t :: ts))] with hm1
        have htool : toolNode exec msgs1
            = (t :: ts).map (fun tc => Message.tool tc.id (exec tc)) := by
          unfold toolNode
          rw [hm1, List.getLast?_concat]
        have hsys2 : (msgs1 ++ toolNode exec msgs1).all (fun m => !m.isSystem) = true := by
          rw [htool, hm1]
          simp only [List.all_append, Bool.and_eq_true]
          exact ⟨⟨hsys, rfl⟩, toolMsgs_no_system exec (t :: ts)⟩
        have hlen2 : 2 ≤ (msgs1 ++ toolNode exec msgs1).length := by
          rw [hm1]
          simp only [List.length_append, List.length_cons, List.length_nil]
          omega
        have hrec := ih (msgs1 ++ toolNode exec msgs1) hlen2 hsys2
        have hshift := runSkillsAux_log_shift prompt model exec fuel
          (msgs1 ++ toolNode exec msgs1) [msgs]
        refine ⟨?_, ?_⟩
        · rw [hshift.1]
          exact hrec.1
        · rw [hshift.2]
          simp only [List.cons_append, List.nil_append, List.all_cons, Bool.and_eq_true]
          exact ⟨hsys, hrec.2⟩

/-- A session run of the skills graph: the first model input is the skills
`SystemMessage` followed by the lone `HumanMessage`; every later model input
contains no `SystemMessage`; and the returned transcript contains no
`SystemMessage`. -/
theorem runSkills_first_turn (prompt : String) (model : ModelFn) (exec : ExecFn)
    (fuel : Nat) (q : String) :
    (runSkills prompt model exec (fuel + 1) q).2.head?
        = some [Message.system prompt, Message.human q]
    ∧ (runSkills prompt model exec (fuel + 1) q).2.tail.all
        (fun input => input.all (fun m => !m.isSystem)) = true
    ∧ (runSkills prompt model exec (fuel + 1) q).1.all
        (fun m => !m.isSystem) = true := by
  have hin : agentInput prompt [Message.human q]
      = [Message.system prompt, Message.human q] := rfl
  unfold runSkills
  simp only [runSkillsAux, hin, List.nil_append, shouldContinue_concat]
  cases htc : (model [Message.system prompt, Message.human q]).2 with
  | none => exact ⟨rfl, rfl, rfl⟩
  | some l =>
    cases l with
    | nil => exact ⟨rfl, rfl, rfl⟩
    | cons t ts =>
      simp only [List.length_cons, if_pos (Nat.succ_pos ts.length)]
      set c := (model [Message.system prompt, Message.human q]).1 with hc
      set msgs1 := [Message.human q] ++ [Message.ai c (some (t :: ts))] with hm1
      have htool : toolNode exec msgs1
          = (t :: ts).map (fun tc => Message.tool tc.id (exec tc)) := by
        unfold toolNode
        rw [hm1, List.getLast?_concat]
      have hsys2 : (msgs1 ++ toolNode exec msgs1).all (fun m => !m.isSystem) = true := by
        rw [htool]
        rw [List.all_append]
        rw [show (msgs1.all fun m => !m.isSystem) = true from rfl]
        rw [Bool.true_and]
        exact toolMsgs_no_system exec (t :: ts)
      have hlen2 : 2 ≤ (msgs1 ++ toolNode exec msgs1).length := by
        rw [hm1]
        simp only [List.length_append, List.length_cons, List.length_nil]
        omega
      have hrec := runSkillsAux_inv prompt model exec fuel
        (msgs1 ++ toolNode exec msgs1) hlen2 hsys2
      have hshift := runSkillsAux_log_shift prompt model exec fuel
        (msgs1 ++ toolNode exec msgs1)
        [[Message.system prompt, Message.human q]]
      refine ⟨?_, ?_, ?_⟩
      · rw [hshift.2]
        rfl
      · rw [hshift.2]
        exact hrec.2
      · rw [hshift.1]
        exact hrec.1

/-- Witness for `runGraph_callsMatched`: a concrete two-call run whose
transcript satisfies the correlation invariant. -/
theorem runGraph_callsMatched_witness :
    callsMatched (runGraph
      (fun msgs => if msgs.length == 1
        then ("", some [⟨"1", "search", "q"⟩, ⟨"2", "search", "r"⟩])
        else ("done", none))
      (fun tc => "result for " ++ tc.id) 5 [Message.human "hi"]) :=
  runGraph_callsMatched _ _ 5 [Message.human "hi"] (by decide)

/-- C3: for every session, the skills `SystemMessage` is prepended to the model
input exactly once, namely at the first model invocation, whose input is the
system prompt followed by the single seed `HumanMessage`; no later invocation
in the same session receives any `SystemMessage`; and at that first invocation
the transcript contains exactly one `HumanMessage` and no `AIMessage`, which is
the first-turn condition the length-one check detects. -/
theorem skills_prompt_injected_once (prompt : String) (model : ModelFn) (exec : ExecFn)
    (fuel : Nat) (q : String) :
    (runSkills prompt model exec (fuel + 1) q).2.head?
        = some (Message.system prompt :: [Message.human q])
    ∧ (runSkills prompt model exec (fuel + 1) q).2.tail.all
        (fun input => input.all (fun m => !m.isSystem)) = true
    ∧ [Message.human q].countP (fun m => m.isHuman) = 1
    ∧ [Message.human q].countP (fun m => m.isAssistant) = 0 := by
  have h := runSkills_first_turn prompt model exec fuel q
  exact ⟨h.1, h.2.1, rfl, rfl⟩

/-- C10: the skills `SystemMessage` is only passed as input to the first model
invocation and is never appended to the session transcript: for every fuel, the
returned (checkpointed) transcript contains no `SystemMessage`, and every model
input after the first receives a transcript without it. -/
theorem transcript_frame_no_system (prompt : String) (model : ModelFn) (exec : ExecFn)
    (fuel : Nat) (q : String) :
    (runSkills prompt model exec fuel q).1.all (fun m => !m.isSystem) = true
    ∧ (runSkills prompt model exec fuel q).2.tail.all
        (fun input => input.all (fun m => !m.isSystem)) = true := by
  cases fuel with
  | zero => exact ⟨rfl, rfl⟩
  | succ fuel =>
    have h := runSkills_first_turn prompt model exec fuel q
    exact ⟨h.2.2, h.2.1⟩

/-- The loader returns one descriptor per valid skill directory. -/
theorem loadSkills_len (readRaw : String → Option (List String)) :
    ∀ entries : List DirEntry,
      (loadSkillsMetadata readRaw entries).1.length
        = (entries.filter (validSkillDir readRaw)).length := by
  intro entries
  induction entries with
  | nil => rfl
  | cons d rest ih =>
    cases hd : d.is_dir with
    | false =>
      have hv : validSkillDir readRaw d = false := by
        simp [validSkillDir, hd]
      simp [loadSkillsMetadata, hd, List.filter_cons, hv, ih]
    | true =>
      cases hr : readRaw (d.path ++ "SKILL.md") with
      | none =>
        have hv : validSkillDir readRaw d = false := by
          simp [validSkillDir, hd, hr]
        simp [loadSkillsMetadata, hd, hr, List.filter_cons, hv, ih]
      | some lines =>
        cases hp : parseSkillFile (d.path ++ "SKILL.md") (String.intercalate "\n" lines) with
        | none =>
          have hv : validSkillDir readRaw d = false := by
            simp [validSkillDir, hd, hr, hp]
          simp [loadSkillsMetadata, hd, hr, hp, List.filter_cons, hv, ih]
        | some sk =>
          have hv : validSkillDir readRaw d = true := by
            simp [validSkillDir, hd, hr, hp]
          simp [loadSkillsMetadata, hd, hr, hp, List.filter_cons, hv, ih]

/-- C4: skill loading is total: for every directory listing and read behaviour
(`readRaw` returning `none` models a thrown read error, so no exception
escapes), the loader returns exactly as many descriptors as there are
subdirectories whose instruction file reads and parses with a validly-headered
name and description, and zero valid skills yields the empty sequence rather
than an error. -/
theorem loadSkills_total (readRaw : String → Option (List String)) (entries : List DirEntry) :
    (loadSkillsMetadata readRaw entries).1.length
        = (entries.filter (validSkillDir readRaw)).length
    ∧ ((entries.filter (validSkillDir readRaw)).length = 0 →
        (loadSkillsMetadata readRaw entries).1 = []) := by
  refine ⟨loadSkills_len readRaw entries, fun h => ?_⟩
  have h2 := loadSkills_len readRaw entries
  rw [h] at h2
  exact List.length_eq_zero.mp h2

/-- Witness for `loadSkills_total`: one unreadable skill directory yields the
empty descriptor sequence. -/
theorem loadSkills_total_witness :
    (loadSkillsMetadata (fun _ => none) [⟨"/skills/a/", true⟩]).1 = [] :=
  (loadSkills_total (fun _ => none) [⟨"/skills/a/", true⟩]).2 (by decide)

/-- C5 counterexample: a directory whose instruction file has a header lacking
the description key is skipped, but the warning list is empty — contrary to the
claim, no warning is logged for a missing key (the warning is only emitted by
the read-error catch). -/
theorem missing_key_no_warning_cex :
    loadSkillsMetadata
      (fun p => if p = "/skills/a/SKILL.md"
        then some ["---", "name: a", "---", "body"] else none)
      [⟨"/skills/a/", true⟩] = ([], []) := by decide

/-- A file whose header matches but lacks the name key or the description key
does not parse. -/
theorem parse_none_of_missing_key (skillMdPath content : String) (fm : List Char)
    (hfm : frontmatterMatch content.toList = some fm)
    (hkey : keyMatch nameKey fm = none ∨ keyMatch descKey fm = none) :
    parseSkillFile skillMdPath content = none := by
  simp only [parseSkillFile, hfm]
  rcases hkey with h | h
  · simp only [h]
  · simp only [h]
    cases keyMatch nameKey fm <;> rfl

/-- C5 amended: for every instruction file whose header lacks the name key or
the description key, the loader skips that skill silently — no warning is
logged — and continues with the remaining entries: the output equals the output
on the listing without that entry. -/
theorem missing_key_skipped (readRaw : String → Option (List String))
    (xs ys : List DirEntry) (d : DirEntry) (hd : d.is_dir = true)
    (lines : List String)
    (hr : readRaw (d.path ++ "SKILL.md") = some lines)
    (fm : List Char)
    (hfm : frontmatterMatch (String.intercalate "\n" lines).toList = some fm)
    (hkey : keyMatch nameKey fm = none ∨ keyMatch descKey fm = none) :
    loadSkillsMetadata readRaw (xs ++ d :: ys) = loadSkillsMetadata readRaw (xs ++ ys) := by
  have hp : parseSkillFile (d.path ++ "SKILL.md") (String.intercalate "\n" lines) = none :=
    parse_none_of_missing_key _ _ fm hfm hkey
  induction xs with
  | nil =>
    simp only [List.nil_append, loadSkillsMetadata, hd, hr, hp]
    simp
  | cons e rest ih =>
    cases he : e.is_dir with
    | false => simp [loadSkillsMetadata, he, ih]
    | true =>
      cases hre : readRaw (e.path ++ "SKILL.md") with
      | none => simp [loadSkillsMetadata, he, hre, ih]
      | some elines =>
        cases hpe : parseSkillFile (e.path ++ "SKILL.md") (String.intercalate "\n" elines) with
        | none => simp [loadSkillsMetadata, he, hre, hpe, ih]
        | some sk => simp [loadSkillsMetadata, he, hre, hpe, ih]

/-- Witness for `missing_key_skipped`: a concrete header lacking the
description key is skipped with no warning. -/
theorem missing_key_skipped_witness :
    loadSkillsMetadata
      (fun p => if p = "/skills/a/SKILL.md"
        then some ["---", "name: a", "---", "body"] else none)
      ([] ++ (⟨"/skills/a/", true⟩ : DirEntry) :: [])
      = loadSkillsMetadata
          (fun p => if p = "/skills/a/SKILL.md"
            then some ["---", "name: a", "---", "body"] else none)
          ([] ++ []) :=
  missing_key_skipped _ [] [] ⟨"/skills/a/", true⟩ rfl
    ["---", "name: a", "---", "body"] (by decide)
    ("name: a".toList) (by decide) (Or.inr (by decide))

/-- C6 counterexample: for the file whose body after the closing delimiter is
the five bytes of `Do X` followed by a newline, the claim requires
`instructions` to keep the trailing newline, but the loader trims it. -/
theorem instructions_trimmed_cex :
    parseSkillFile "p" "---\nname: a\ndescription: b\n---\nDo X\n"
      = some ⟨"a", "b", "p", "Do X"⟩
    ∧ "Do X" ≠ "Do X\n" := by
  constructor
  · decide
  · decide

/-- C6 amended: for every body, the descriptor of a canonically-headered file
has `instructions` equal to the text following the closing delimiter line with
its leading newline removed and then trimmed of leading and trailing
whitespace (`String.prototype.trim`), with no other modification. -/
theorem instructions_trim_amended (body : List Char) :
    parseSkillFile "p" (("---\nname: a\ndescription: b\n---\n".toList ++ body).asString)
      = some ⟨"a", "b", "p", (trimChars body).asString⟩ := rfl

/-- C7 counterexample: a file whose closing delimiter line is four dashes is
still recognized as validly headered — contrary to the claim that the header is
recognized only when the closing delimiter is a line of exactly three
dashes. (The body-stripping regex does not match here, so the whole file,
trimmed, becomes `instructions`.) -/
theorem header_delims_cex :
    parseSkillFile "p" "---\nname: a\ndescription: b\n----\nbody"
      = some ⟨"a", "b", "p", "---\nname: a\ndescription: b\n----\nbody"⟩ := by
  decide

/-- C7 amended: the header is recognized only when the file opens with a line
of exactly three dashes (four dashes are rejected), while the closing delimiter
is any line beginning with three dashes (text may follow on the same line);
within the header the keys `name` and `description` are matched
case-sensitively, first match wins, independently of the order of the two
keys. -/
theorem header_delims_amended :
    (∀ rest : List Char,
        frontmatterMatch ('-' :: '-' :: '-' :: '-' :: '\n' :: rest) = none)
    ∧ (∀ tail : List Char,
        frontmatterMatch ("---\nname: a\ndescription: b\n---".toList ++ tail)
          = some ("name: a\ndescription: b".toList))
    ∧ parseSkillFile "p" "---\ndescription: b\nname: a\n---\nbody"
        = some ⟨"a", "b", "p", "body"⟩
    ∧ parseSkillFile "p" "---\nname: a\nname: z\ndescription: b\n---\nbody"
        = some ⟨"a", "b", "p", "body"⟩
    ∧ parseSkillFile "p" "---\nName: a\ndescription: b\n---\nbody" = none := by
  refine ⟨fun rest => rfl, fun tail => rfl, by decide, by decide, by decide⟩

end SkillsTest
